import Mathlib

/-!
Shallow embedding of the relational execution core in `src/query/relation.rs`
of the cozo repository: fixed (inline) relations, triple scans, stored derived
relations, filters, reorders, inner joins with their physical strategies, the
temporary-variable elimination pass, and the `Joiner` key resolver.

Rust iterators yielding `Result<Tuple>` are modelled as `List (Except Err Tuple)`.
Rust panics (`unwrap`, `unreachable!`, `panic!`, `expect`) that occur while an
iterator is being constructed are modelled by an outer `Except String` layer on
`Relation.iter`.  External collaborators that live outside `src/` (`DataValue`,
`SessionTx` scans, the temp store, expressions) are modelled from the spec, as
noted on each definition.
-/

namespace Cozo

/-- Entity ids. Modelled from the spec: opaque identifiers for entities. -/
abbrev EntityId := Nat

/-- Attribute ids (the `attr.id` field used as a scan key). -/
abbrev AttrId := Nat

/-- Temp store ids; used by callers to build `use_delta` sets. -/
abbrev TempStoreId := Nat

/-- Validity timestamps. Modelled from the spec: a monotonic read timestamp,
opaque to the execution core. -/
abbrev Validity := Nat

/-- Bindings (the `Keyword` type): symbolic column names compared by value. -/
abbrev Keyword := String

/-- Modelled from the spec: `DataValue` (`crate::data::value`, outside `src/`)
is a tagged union of scalar kinds with the `EntityId` tag distinguished;
equality is structural. A representative set of scalar kinds suffices. -/
inductive DataValue where
  | enId (e : EntityId)
  | strV (s : String)
  | intV (n : Int)
  | boolV (b : Bool)
deriving DecidableEq

/-- Tuples: ordered sequences of values, positions matched to a binding list
known from context. -/
abbrev Tuple := List DataValue

/-- Errors carried in tuple streams. Storage errors are opaque; the type error
of `DataValue::get_entity_id` and the two logic errors of
`Joiner::join_indices` (which format a message naming the missing key) are
modelled structurally. -/
inductive Err where
  | storage (msg : String)
  | notAnEntityId (v : DataValue)
  | logicLeftKeyNotFound (kw : Keyword)
  | logicRightKeyNotFound (kw : Keyword)
deriving DecidableEq

instance {ε α : Type _} [DecidableEq ε] [DecidableEq α] : DecidableEq (Except ε α) := fun
  | .ok a, .ok b =>
    if h : a = b then .isTrue (by rw [h])
    else .isFalse (by intro hh; cases hh; exact h rfl)
  | .ok _, .error _ => .isFalse (by intro h; cases h)
  | .error _, .ok _ => .isFalse (by intro h; cases h)
  | .error e, .error f =>
    if h : e = f then .isTrue (by rw [h])
    else .isFalse (by intro hh; cases hh; exact h rfl)

/-- Modelled from the spec: extracting an entity id from a non-entity value is
a type error surfaced at the point of extraction. -/
def DataValue.getEntityId : DataValue → Except Err EntityId
  | .enId e => .ok e
  | v => .error (.notAnEntityId v)

/-- The attribute descriptor fields consulted by the triple-join dispatch:
`attr.id`, `attr.val_type.is_ref_type()`, `attr.indexing.should_index()`.
Modelled from the spec (the `Attribute` type lives outside `src/`). -/
structure Attribute where
  id : AttrId
  valTypeIsRef : Bool
  indexingShouldIndex : Bool
deriving DecidableEq

/-- Modelled from the spec: the transaction scan interface consumed by the
core. Each scan is a lazy failable sequence, modelled as a list of `Except`. -/
structure SessionTx where
  tripleAScan : AttrId → Validity → List (Except Err (AttrId × EntityId × DataValue))
  tripleEAScan : EntityId → AttrId → Validity → List (Except Err (EntityId × AttrId × DataValue))
  tripleAVScan : AttrId → DataValue → Validity → List (Except Err (AttrId × DataValue × EntityId))
  tripleVRefAScan : EntityId → AttrId → Validity → List (Except Err (EntityId × AttrId × EntityId))
  eavExists : EntityId → AttrId → DataValue → Validity → Except Err Bool

/-- Modelled from the spec: a temp store holds, per epoch, a set of tuples and
answers key-prefix scans; it has a stable id used to build `use_delta` sets. -/
structure TempStore where
  id : TempStoreId
  contents : Nat → List Tuple

/-- Total indexing into a tuple; models `tuple.0[i]` / `tuple.0.get(i).unwrap()`
at positions that are in range for every well-formed plan. -/
def tget (t : Tuple) (i : Nat) : DataValue := t.getD i (.enId 0)

/-- Modelled from the spec: a key-prefix scan returns the stored tuples whose
leading columns equal the given key prefix. -/
def scanPfx (store : List Tuple) (p : Tuple) : List Tuple :=
  store.filter fun t => decide (t.take p.length = p)

/-- `scan_all_for_epoch`. -/
def TempStore.scanAllForEpoch (s : TempStore) (ep : Nat) : List Tuple := s.contents ep

/-- `scan_prefix_for_epoch`. -/
def TempStore.scanPfxForEpoch (s : TempStore) (p : Tuple) (ep : Nat) : List Tuple :=
  scanPfx (s.contents ep) p

/-- `scan_prefix` (reads the full store, i.e. epoch 0). -/
def TempStore.scanPfx0 (s : TempStore) (p : Tuple) : List Tuple :=
  scanPfx (s.contents 0) p

/-- The elimination block appearing in every emitting join and in the filter:
`if !eliminate_indices.is_empty() { keep only positions not in the set }`. -/
def applyElim (elim : Finset Nat) (t : Tuple) : Tuple :=
  if elim = ∅ then t
  else t.enum.filterMap fun p => if p.1 ∈ elim then none else some p.2

/-- `get_eliminate_indices`: positions of the bindings that occur in the
elimination set. -/
def getEliminateIndices (bindings : List Keyword) (elim : Finset Keyword) : Finset Nat :=
  (bindings.enum.filterMap fun p => if p.2 ∈ elim then some p.1 else none).toFinset

/-- `itertools` stable sort by the second component, as used by
`sorted_by_key(|(_, b)| **b)` and `sort_by_key(|(_, b)| **b)` on enumerated
index lists. -/
def sortPairsBySnd (l : List (Nat × Nat)) : List (Nat × Nat) :=
  List.insertionSort (fun a b => a.2 ≤ b.2) l

/-- `FilteredRelation::iter`, given the already-resolved predicate, the
positional elimination set and the parent stream: evaluate the predicate on
each parent tuple, emit on `Ok(true)` (projecting the elimination positions
when the set is non-empty), drop on `Ok(false)`, surface evaluation errors,
and pass parent errors through. -/
def filteredIterCore (pred : Tuple → Except Err Bool) (elim : Finset Nat)
    (parentIter : List (Except Err Tuple)) : List (Except Err Tuple) :=
  parentIter.flatMap fun item =>
    match item with
    | .ok t =>
      match pred t with
      | .ok true => [.ok (applyElim elim t)]
      | .ok false => []
      | .error e => [.error e]
    | .error e => [.error e]

/-- One `BTreeMap::get_mut`/`insert` step of the grouping map built by
`InlineFixedRelation::join` in its multi-row branch: append the row to the
entry for its key, creating the entry if absent. -/
def insertMapping (m : List (List DataValue × List Tuple)) (key : List DataValue)
    (row : Tuple) : List (List DataValue × List Tuple) :=
  match m with
  | [] => [(key, [row])]
  | (k, rows) :: rest =>
    if k = key then (k, rows ++ [row]) :: rest else (k, rows) :: insertMapping rest key row

/-- Lookup in the grouping map (`BTreeMap::get`). -/
def lookupMapping (m : List (List DataValue × List Tuple)) (key : List DataValue) :
    Option (List Tuple) :=
  match m with
  | [] => none
  | (k, rows) :: rest => if k = key then some rows else lookupMapping rest key

/-- The `right_mapping` of the multi-row branch of `InlineFixedRelation::join`:
group every data row under its vector of `R`-indexed values. -/
def buildMapping (data : List (List DataValue)) (rightJoinIndices : List Nat) :
    List (List DataValue × List Tuple) :=
  data.foldl (fun m row => insertMapping m (rightJoinIndices.map fun v => tget row v) row) []

/-- `InlineFixedRelation::join`. Empty data: empty result. Exactly one row:
compare the probe tuple values at `L` with the row values at `R` once per probe
tuple, and on equality emit `probe ++ row` with the elimination positions
projected out. Multiple rows: group rows by their `R`-key, look up each probe
tuple key, and emit `probe ++ row` per matching row (the source applies no
elimination in this branch). Probe errors pass through. -/
def fixedJoin (data : List (List DataValue)) (leftIter : List (Except Err Tuple))
    (leftJoinIndices rightJoinIndices : List Nat) (eliminateIndices : Finset Nat) :
    List (Except Err Tuple) :=
  match data with
  | [] => []
  | [row] =>
    let rightJoinValues := rightJoinIndices.map fun v => tget row v
    leftIter.flatMap fun item =>
      match item with
      | .error e => [.error e]
      | .ok t =>
        if (leftJoinIndices.map fun v => tget t v) = rightJoinValues then
          [.ok (applyElim eliminateIndices (t ++ row))]
        else []
  | r1 :: r2 :: rest =>
    let rightMapping := buildMapping (r1 :: r2 :: rest) rightJoinIndices
    leftIter.flatMap fun item =>
      match item with
      | .error e => [.error e]
      | .ok t =>
        match lookupMapping rightMapping (leftJoinIndices.map fun v => tget t v) with
        | none => []
        | some rows => rows.map fun row => .ok (t ++ row)

/-- `TripleRelation`: an attribute descriptor, a validity, and the
entity/value binding pair. -/
structure TripleRel where
  attr : Attribute
  vld : Validity
  eBinding : Keyword
  vBinding : Keyword

/-- `TripleRelation::cartesian_join` (`|R| == 0`): cross every probe tuple with
the full attribute scan, appending `[EntityId(e), v]`; note the source passes
no elimination set into this variant. -/
def tripleCartesianJoin (r : TripleRel) (leftIter : List (Except Err Tuple))
    (tx : SessionTx) : List (Except Err Tuple) :=
  leftIter.flatMap fun item =>
    match item with
    | .error e => [.error e]
    | .ok t =>
      (tx.tripleAScan r.attr.id r.vld).map fun s =>
        s.map fun p => t ++ [DataValue.enId p.2.1, p.2.2]

/-- `TripleRelation::ev_join` (`|R| == 2`): an existence filter through
`eav_exists`; on success append `[EntityId(e), v]` and project `E`. -/
def tripleEvJoin (r : TripleRel) (leftIter : List (Except Err Tuple))
    (leftEIdx leftVIdx : Nat) (tx : SessionTx) (elim : Finset Nat) :
    List (Except Err Tuple) :=
  leftIter.flatMap fun item =>
    match item with
    | .error e => [.error e]
    | .ok t =>
      match (tget t leftEIdx).getEntityId with
      | .error e => [.error e]
      | .ok eid =>
        match tx.eavExists eid r.attr.id (tget t leftVIdx) r.vld with
        | .error e => [.error e]
        | .ok true => [.ok (applyElim elim (t ++ [.enId eid, tget t leftVIdx]))]
        | .ok false => []

/-- `TripleRelation::e_join` (`R == [0]`): scan triples by the probe entity id
and emit one output per triple, appending `[EntityId(e), v]` and projecting
`E`. -/
def tripleEJoin (r : TripleRel) (leftIter : List (Except Err Tuple))
    (leftEIdx : Nat) (tx : SessionTx) (elim : Finset Nat) : List (Except Err Tuple) :=
  leftIter.flatMap fun item =>
    match item with
    | .error e => [.error e]
    | .ok t =>
      match (tget t leftEIdx).getEntityId with
      | .error e => [.error e]
      | .ok eid =>
        (tx.tripleEAScan eid r.attr.id r.vld).map fun s =>
          s.map fun p => applyElim elim (t ++ [DataValue.enId p.1, p.2.2])

/-- `TripleRelation::v_ref_join` (`R == [1]`, reference-typed value): reverse
reference scan from the probe value entity id; emit
`probe ++ [EntityId(e), EntityId(v)]` with `E` projected. -/
def tripleVRefJoin (r : TripleRel) (leftIter : List (Except Err Tuple))
    (leftVIdx : Nat) (tx : SessionTx) (elim : Finset Nat) : List (Except Err Tuple) :=
  leftIter.flatMap fun item =>
    match item with
    | .error e => [.error e]
    | .ok t =>
      match (tget t leftVIdx).getEntityId with
      | .error e => [.error e]
      | .ok vEid =>
        (tx.tripleVRefAScan vEid r.attr.id r.vld).map fun s =>
          s.map fun p => applyElim elim (t ++ [DataValue.enId p.2.2, DataValue.enId vEid])

/-- `TripleRelation::v_index_join` (`R == [1]`, value-indexed): scan by value
and emit `probe ++ [EntityId(e), v]` with `E` projected. -/
def tripleVIndexJoin (r : TripleRel) (leftIter : List (Except Err Tuple))
    (leftVIdx : Nat) (tx : SessionTx) (elim : Finset Nat) : List (Except Err Tuple) :=
  leftIter.flatMap fun item =>
    match item with
    | .error e => [.error e]
    | .ok t =>
      (tx.tripleAVScan r.attr.id (tget t leftVIdx) r.vld).map fun s =>
        s.map fun p => applyElim elim (t ++ [DataValue.enId p.2.2, p.2.1])

/-- The materialization loop of `TripleRelation::v_no_index_join`: drain the
attribute scan into the throwaway store as `Tuple[v, EntityId(e)]`, aborting
with the first error. -/
def drainTriplesToStore :
    List (Except Err (AttrId × EntityId × DataValue)) → Except Err (List Tuple)
  | [] => .ok []
  | .error e :: _ => .error e
  | .ok p :: rest =>
    (drainTriplesToStore rest).map fun l => [p.2.2, DataValue.enId p.2.1] :: l

/-- `TripleRelation::v_no_index_join` (`R == [1]`, value not indexed):
materialize `Tuple[v, EntityId(e)]` for every triple of the attribute into a
throwaway store, then key-prefix scan it with the probe value. For each hit
the source pops the last element of the found tuple (the entity id) and pushes
only it onto the probe tuple. -/
def tripleVNoIndexJoin (r : TripleRel) (leftIter : List (Except Err Tuple))
    (leftVIdx : Nat) (tx : SessionTx) (elim : Finset Nat) : List (Except Err Tuple) :=
  match drainTriplesToStore (tx.tripleAScan r.attr.id r.vld) with
  | .error e => [.error e]
  | .ok store =>
    leftIter.flatMap fun item =>
      match item with
      | .error e => [.error e]
      | .ok t =>
        (scanPfx store [tget t leftVIdx]).map fun found =>
          .ok (applyElim elim (t ++ [found.getLastD (.enId 0)]))

/-- `TripleRelation::join`: the six-way dispatch on `|R|` and the attribute
descriptor. `unreachable!()` and `panic!("should not happen")` are modelled as
the `Except.error` constructor of the outer panic layer. -/
def tripleJoinDispatch (r : TripleRel) (leftIter : List (Except Err Tuple))
    (leftJoinIndices rightJoinIndices : List Nat) (tx : SessionTx) (elim : Finset Nat) :
    Except String (List (Except Err Tuple)) :=
  match rightJoinIndices with
  | [] => .ok (tripleCartesianJoin r leftIter tx)
  | [rIdx] =>
    .ok (if rIdx = 0 then
        tripleEJoin r leftIter (leftJoinIndices.getD 0 0) tx elim
      else if r.attr.valTypeIsRef then
        tripleVRefJoin r leftIter (leftJoinIndices.getD 0 0) tx elim
      else if r.attr.indexingShouldIndex then
        tripleVIndexJoin r leftIter (leftJoinIndices.getD 0 0) tx elim
      else
        tripleVNoIndexJoin r leftIter (leftJoinIndices.getD 0 0) tx elim)
  | [rFirst, rSecond] =>
    let leftFirst := leftJoinIndices.headD 0
    let leftSecond := leftJoinIndices.getLastD 0
    match rFirst, rSecond with
    | 0, 1 => .ok (tripleEvJoin r leftIter leftFirst leftSecond tx elim)
    | 1, 0 => .ok (tripleEvJoin r leftIter leftSecond leftFirst tx elim)
    | _, _ => .error "should not happen"
  | _ => .error "unreachable"

/-- `StoredDerivedRelation`: a column-named binding list over a temp store. -/
structure DerivedRel where
  bindings : List Keyword
  storage : TempStore

/-- `StoredDerivedRelation::iter`: empty at epoch `Some(0)`; otherwise read the
full store (epoch 0) when `epoch` is `None` or the store id is not in
`use_delta`, and the delta for `epoch - 1` when it is. -/
def derivedIter (r : DerivedRel) (epoch : Option Nat) (useDelta : Finset TempStoreId) :
    List Tuple :=
  if epoch = some 0 then []
  else
    let scanEpoch :=
      match epoch with
      | none => 0
      | some ep => if r.storage.id ∈ useDelta then ep - 1 else 0
    r.storage.scanAllForEpoch scanEpoch

/-- `StoredDerivedRelation::join_is_prefix`: sorting `R` yields
`[0, 1, ..., |R|-1]`. -/
def joinIsPfx (rightJoinIndices : List Nat) : Bool :=
  decide (List.insertionSort (· ≤ ·) rightJoinIndices = List.range rightJoinIndices.length)

/-- The epoch selected by `prefix_join` for its `scan_prefix_for_epoch` call. -/
def pfxJoinScanEpoch (r : DerivedRel) (epoch : Option Nat) (useDelta : Finset TempStoreId) :
    Nat :=
  match epoch with
  | none => 0
  | some ep => if r.storage.id ∈ useDelta then ep - 1 else 0

/-- The body of `StoredDerivedRelation::prefix_join` once the scan epoch is
fixed: per probe tuple, build the key prefix from the probe columns reordered
to match stored key order, prefix-scan, and emit `probe ++ found` with `E`
projected. -/
def derivedPfxJoinBody (r : DerivedRel) (leftIter : List (Except Err Tuple))
    (leftJoinIndices rightJoinIndices : List Nat) (elim : Finset Nat) (scanEpoch : Nat) :
    List (Except Err Tuple) :=
  let leftToPfxIndices :=
    (sortPairsBySnd rightJoinIndices.enum).map fun p => leftJoinIndices.getD p.1 0
  leftIter.flatMap fun item =>
    match item with
    | .error e => [.error e]
    | .ok t =>
      let pfx := leftToPfxIndices.map fun i => tget t i
      (r.storage.scanPfxForEpoch pfx scanEpoch).map fun found =>
        .ok (applyElim elim (t ++ found))

/-- `StoredDerivedRelation::prefix_join`. -/
def derivedPfxJoin (r : DerivedRel) (leftIter : List (Except Err Tuple))
    (leftJoinIndices rightJoinIndices : List Nat) (elim : Finset Nat)
    (epoch : Option Nat) (useDelta : Finset TempStoreId) : List (Except Err Tuple) :=
  if epoch = some 0 then []
  else derivedPfxJoinBody r leftIter leftJoinIndices rightJoinIndices elim
    (pfxJoinScanEpoch r epoch useDelta)

/-- The probe-column indices from which `StoredDerivedRelation::neg_join`
builds its scan prefix: enumerate `R`, stable-sort by the right index, and walk
the sorted list while the running position equals the right index, collecting
`L[idx]` for the original pair position `idx`. -/
def negJoinPfxIndices (leftJoinIndices rightJoinIndices : List Nat) : List Nat :=
  (((sortPairsBySnd rightJoinIndices.enum).enum.takeWhile fun p =>
      p.1 == p.2.2).map fun p => leftJoinIndices.getD p.2.1 0)

/-- `StoredDerivedRelation::neg_join`: prefix-scan the full store (epoch 0)
with the prefix built from `negJoinPfxIndices`; a probe tuple is dropped when
some hit agrees with it on every paired `(L[i], R[i])` column, and emitted
otherwise. -/
def derivedNegJoin (r : DerivedRel) (leftIter : List (Except Err Tuple))
    (leftJoinIndices rightJoinIndices : List Nat) : List (Except Err Tuple) :=
  let ltp := negJoinPfxIndices leftJoinIndices rightJoinIndices
  leftIter.flatMap fun item =>
    match item with
    | .error e => [.error e]
    | .ok t =>
      let pfx := ltp.map fun i => tget t i
      if (r.storage.scanPfx0 pfx).any (fun found =>
          (leftJoinIndices.zip rightJoinIndices).all fun p =>
            tget t p.1 == tget found p.2) then
        []
      else [.ok t]

/-- The binding-to-position map of `Joiner::join_indices` and
`ReorderRelation::iter`: a `BTreeMap` collected from an enumeration, so for a
duplicated binding the later position wins. -/
def bindingMapGet (bindings : List Keyword) (k : Keyword) : Option Nat :=
  (bindings.enum.filterMap fun p => if p.2 = k then some p.1 else none).getLast?

/-- The pair loop of `Joiner::join_indices`: resolve each `(left, right)` key
pair to positions, failing with a logic error naming the first missing key. -/
def joinIndicesAux (leftBindings rightBindings : List Keyword) :
    List (Keyword × Keyword) → Except Err (List Nat × List Nat)
  | [] => .ok ([], [])
  | (l, r) :: rest =>
    match bindingMapGet leftBindings l with
    | none => .error (.logicLeftKeyNotFound l)
    | some lp =>
      match bindingMapGet rightBindings r with
      | none => .error (.logicRightKeyNotFound r)
      | some rp =>
        (joinIndicesAux leftBindings rightBindings rest).map fun pr =>
          (lp :: pr.1, rp :: pr.2)

/-- `Joiner::join_indices`. -/
def joinIndices (leftKeys rightKeys leftBindings rightBindings : List Keyword) :
    Except Err (List Nat × List Nat) :=
  joinIndicesAux leftBindings rightBindings (leftKeys.zip rightKeys)

/-- The build phase of `InnerJoin::materialized_join`: drain the right child
stream into the throwaway store, storing each tuple reordered through
`right_store_indices`; the first error aborts the drain. -/
def drainStore : List (Except Err Tuple) → List Nat → Except Err (List Tuple)
  | [], _ => .ok []
  | .error e :: _, _ => .error e
  | .ok t :: rest, idxs =>
    (drainStore rest idxs).map fun l => (idxs.map fun i => tget t i) :: l

/-- `right_store_indices`: the build-side columns reordered so that `R` comes
first in its given order, the remaining columns following in original order. -/
def rightStoreIndicesOf (rightJoinIndices : List Nat) (nRight : Nat) : List Nat :=
  rightJoinIndices ++ (List.range nRight).filter fun i => ¬ rightJoinIndices.contains i

/-- `right_invert_indices`: the inverse permutation recorded to reconstruct
the original column order on emit. -/
def rightInvertIndicesOf (rightStoreIndices : List Nat) : List Nat :=
  (sortPairsBySnd rightStoreIndices.enum).map fun p => p.1

/-- `InnerJoin::materialized_join`, taking the two child streams: build the
keyed throwaway store from the right stream (aborting on the first error),
then for each probe tuple prefix-scan with its `L`-columns and emit
`probe ++ right_original_order(found)` with `E` projected out. -/
def materializedJoinCore (leftIter rightIter : List (Except Err Tuple))
    (leftJoinIndices rightJoinIndices : List Nat) (nRight : Nat) (elim : Finset Nat) :
    List (Except Err Tuple) :=
  let rightStoreIndices := rightStoreIndicesOf rightJoinIndices nRight
  let rightInvertIndices := rightInvertIndicesOf rightStoreIndices
  match drainStore rightIter rightStoreIndices with
  | .error e => [.error e]
  | .ok store =>
    leftIter.flatMap fun item =>
      match item with
      | .error e => [.error e]
      | .ok t =>
        let pfx := leftJoinIndices.map fun i => tget t i
        (scanPfx store pfx).map fun found =>
          .ok (applyElim elim (t ++ rightInvertIndices.map fun i => tget found i))

/-- Modelled from the spec: the expression interface consumed by `Filter` —
its free bindings and predicate evaluation on a positional tuple (after the
one-shot `fill_binding_indices`). -/
structure Expr where
  bindings : List Keyword
  evalPred : Tuple → Except Err Bool

/-- The `Relation` node tree: a closed sum of Fixed, Triple, Derived, Join,
Reorder and Filter, with elimination sets attached to Fixed, Join and
Filter. -/
inductive Relation where
  | fixed (bindings : List Keyword) (data : List (List DataValue)) (toEliminate : Finset Keyword)
  | triple (rel : TripleRel)
  | derived (rel : DerivedRel)
  | join (left right : Relation) (leftKeys rightKeys : List Keyword) (toEliminate : Finset Keyword)
  | reorder (relation : Relation) (newOrder : List Keyword)
  | filter (parent : Relation) (pred : Expr) (toEliminate : Finset Keyword)

/-- `Relation::eliminate_set`: only Fixed, Join and Filter carry one. -/
def Relation.eliminateSet : Relation → Option (Finset Keyword)
  | .fixed _ _ e => some e
  | .triple _ => none
  | .derived _ => none
  | .join _ _ _ _ e => some e
  | .reorder _ _ => none
  | .filter _ _ e => some e

/-- Filtering a binding list through an optional elimination set (the body of
`bindings_after_eliminate`). -/
def afterAux (s : Option (Finset Keyword)) (b : List Keyword) : List Keyword :=
  match s with
  | some elim => b.filter fun kw => ¬ kw ∈ elim
  | none => b

/-- `Relation::bindings_before_eliminate`. -/
def Relation.bindingsBeforeEliminate : Relation → List Keyword
  | .fixed b _ _ => b
  | .triple r => [r.eBinding, r.vBinding]
  | .derived r => r.bindings
  | .join l r _ _ _ =>
    afterAux l.eliminateSet l.bindingsBeforeEliminate
      ++ afterAux r.eliminateSet r.bindingsBeforeEliminate
  | .reorder _ newOrder => newOrder
  | .filter p _ _ => afterAux p.eliminateSet p.bindingsBeforeEliminate

/-- `Relation::bindings_after_eliminate`. -/
def Relation.bindingsAfterEliminate (r : Relation) : List Keyword :=
  afterAux r.eliminateSet r.bindingsBeforeEliminate

/-- `Relation::eliminate_temp_vars` / the `do_eliminate_temp_vars` methods, as
a functional update (the Rust method mutates in place and always returns
`Ok`): each node adds its own bindings not in `used` to its elimination set;
Filter recurses with the predicate bindings added, Join with its own keys
added on each side. -/
def Relation.eliminateTempVars : Relation → Finset Keyword → Relation
  | .fixed b d elim, used =>
    .fixed b d (elim ∪ (b.filter fun kw => ¬ kw ∈ used).toFinset)
  | .triple r, _ => .triple r
  | .derived r, _ => .derived r
  | .join l r lk rk elim, used =>
    .join (l.eliminateTempVars (used ∪ lk.toFinset))
      (r.eliminateTempVars (used ∪ rk.toFinset)) lk rk
      (elim ∪ ((afterAux l.eliminateSet l.bindingsBeforeEliminate
        ++ afterAux r.eliminateSet r.bindingsBeforeEliminate).filter fun kw =>
          ¬ kw ∈ used).toFinset)
  | .reorder rel ord, used => .reorder (rel.eliminateTempVars used) ord
  | .filter p pred elim, used =>
    .filter (p.eliminateTempVars (used ∪ pred.bindings.toFinset)) pred
      (elim ∪ (p.bindingsBeforeEliminate.filter fun kw => ¬ kw ∈ used).toFinset)

/-- `ReorderRelation::iter` index computation: map every binding of
`new_order` to its position in the child bindings; a missing binding is an
`expect` panic in the source. -/
def reorderIndicesOf (oldOrder newOrder : List Keyword) : Option (List Nat) :=
  newOrder.mapM fun k => bindingMapGet oldOrder k

/-- `Relation::iter` together with `InnerJoin::iter` (which dispatches a
physical strategy on the structural shape of the right child).  The outer
`Except String` models the panics that can fire while the iterator is being
constructed: the `.unwrap()` on `Joiner::join_indices`, the `expect` in
`ReorderRelation::iter`, the `unreachable!()`/`panic!` arms of the triple
dispatch, and `panic!("joining on reordered")` for a Reorder right child.
A Fixed node emits its raw data rows. -/
def Relation.iter : Relation → SessionTx → Option Nat → Finset TempStoreId →
    Except String (List (Except Err Tuple))
  | .fixed _ data _, _, _, _ => .ok (data.map .ok)
  | .triple r, tx, _, _ =>
    .ok ((tx.tripleAScan r.attr.id r.vld).map fun item =>
      item.map fun p => [DataValue.enId p.2.1, p.2.2])
  | .derived r, _, epoch, useDelta => .ok ((derivedIter r epoch useDelta).map .ok)
  | .reorder rel newOrder, tx, epoch, useDelta => do
    let child ← rel.iter tx epoch useDelta
    match reorderIndicesOf rel.bindingsAfterEliminate newOrder with
    | none => .error "program logic error: reorder indices mismatch"
    | some idxs =>
      .ok (child.map fun item => item.map fun t => idxs.map fun i => tget t i)
  | .filter p pred toElim, tx, epoch, useDelta => do
    let parentList ← p.iter tx epoch useDelta
    .ok (filteredIterCore pred.evalPred
      (getEliminateIndices p.bindingsAfterEliminate toElim) parentList)
  | .join l r lk rk toElim, tx, epoch, useDelta =>
    let elimIdx := getEliminateIndices
      (afterAux l.eliminateSet l.bindingsBeforeEliminate
        ++ afterAux r.eliminateSet r.bindingsBeforeEliminate) toElim
    match r with
    | .fixed _ fdata _ =>
      match joinIndices lk rk l.bindingsAfterEliminate r.bindingsAfterEliminate with
      | .error _ => .error "called unwrap on an Err value"
      | .ok ji => do
        let leftList ← l.iter tx epoch useDelta
        .ok (fixedJoin fdata leftList ji.1 ji.2 elimIdx)
    | .triple trel =>
      match joinIndices lk rk l.bindingsAfterEliminate r.bindingsAfterEliminate with
      | .error _ => .error "called unwrap on an Err value"
      | .ok ji => do
        let leftList ← l.iter tx epoch useDelta
        tripleJoinDispatch trel leftList ji.1 ji.2 tx elimIdx
    | .derived drel =>
      match joinIndices lk rk l.bindingsAfterEliminate r.bindingsAfterEliminate with
      | .error _ => .error "called unwrap on an Err value"
      | .ok ji =>
        if joinIsPfx ji.2 then do
          let leftList ← l.iter tx epoch useDelta
          .ok (derivedPfxJoin drel leftList ji.1 ji.2 elimIdx epoch useDelta)
        else do
          let rightList ← r.iter tx epoch useDelta
          let leftList ← l.iter tx epoch useDelta
          .ok (materializedJoinCore leftList rightList ji.1 ji.2
            r.bindingsAfterEliminate.length elimIdx)
    | .join _ _ _ _ _ =>
      match joinIndices lk rk l.bindingsAfterEliminate r.bindingsAfterEliminate with
      | .error _ => .error "called unwrap on an Err value"
      | .ok ji => do
        let rightList ← r.iter tx epoch useDelta
        let leftList ← l.iter tx epoch useDelta
        .ok (materializedJoinCore leftList rightList ji.1 ji.2
          r.bindingsAfterEliminate.length elimIdx)
    | .filter _ _ _ =>
      match joinIndices lk rk l.bindingsAfterEliminate r.bindingsAfterEliminate with
      | .error _ => .error "called unwrap on an Err value"
      | .ok ji => do
        let rightList ← r.iter tx epoch useDelta
        let leftList ← l.iter tx epoch useDelta
        .ok (materializedJoinCore leftList rightList ji.1 ji.2
          r.bindingsAfterEliminate.length elimIdx)
    | .reorder _ _ => .error "joining on reordered"

/-- The successful tuples of a stream, in order. -/
def okList (l : List (Except Err Tuple)) : List Tuple :=
  l.filterMap fun item => match item with | .ok t => some t | .error _ => none

/-- Modelled from the spec words of C5 (the claimed prefix construction): the
probe columns `L[i]` for the longest prefix `R[0..k]` that is an identity
permutation, i.e. `R[i] = i` for all `i < k`. -/
def identityPfxIndices (leftJoinIndices rightJoinIndices : List Nat) : List Nat :=
  ((rightJoinIndices.enum.takeWhile fun p => p.1 == p.2).map
    fun p => leftJoinIndices.getD p.1 0)

/-- The single-tuple derived store used to witness the neg-join theorem. -/
def c5Derived : DerivedRel := ⟨["a", "b"], ⟨0, fun _ => [[.intV 5, .intV 6]]⟩⟩

/-- A transaction whose only non-empty scan is the full-attribute scan,
holding the single triple `(entity 3, attribute 7, value "x")`. -/
def txSingleTriple : SessionTx :=
  { tripleAScan := fun _ _ => [.ok (7, 3, .strV "x")]
    tripleEAScan := fun _ _ _ => []
    tripleAVScan := fun _ _ _ => []
    tripleVRefAScan := fun _ _ _ => []
    eavExists := fun _ _ _ _ => .ok false }

/-- A transaction with no triples at all. -/
def txEmpty : SessionTx :=
  { tripleAScan := fun _ _ => []
    tripleEAScan := fun _ _ _ => []
    tripleAVScan := fun _ _ _ => []
    tripleVRefAScan := fun _ _ _ => []
    eavExists := fun _ _ _ _ => .ok false }

/-- A transaction whose full-attribute scan is the given list and whose other
scans are empty. -/
def txWithAScan (l : List (Except Err (AttrId × EntityId × DataValue))) : SessionTx :=
  { tripleAScan := fun _ _ => l
    tripleEAScan := fun _ _ _ => []
    tripleAVScan := fun _ _ _ => []
    tripleVRefAScan := fun _ _ _ => []
    eavExists := fun _ _ _ _ => .ok false }

/-- C1: refuted on the code, which is the slip (code_bug). With a single
triple `(e = 3, a = 7, v = "x")` of a non-reference, non-indexed attribute and
the probe tuple `["x"]`, `v_no_index_join` emits `["x", EntityId(3)]`: it pops
the entity id off the stored `[v, EntityId(e)]` tuple and appends only that
single value, not `[EntityId(3), "x"]` as every other variant appends — so the
output is not the probe tuple with `[EntityId(e), v]` appended. -/
theorem vNoIndexJoin_appends_only_entity_id :
    tripleVNoIndexJoin ⟨⟨7, false, false⟩, 0, "e", "v"⟩ [.ok [.strV "x"]] 0 txSingleTriple ∅
      = [.ok [.strV "x", .enId 3]]
    ∧ tripleVNoIndexJoin ⟨⟨7, false, false⟩, 0, "e", "v"⟩ [.ok [.strV "x"]] 0 txSingleTriple ∅
      ≠ [.ok [.strV "x", .enId 3, .strV "x"]] := by
  exact ⟨by decide, by decide⟩

/-- C2, counterexample: a Fixed relation with bindings `[a, b]` and the row
`[1, 2]`, after `eliminate_temp_vars({a})`, reports post-elimination bindings
`[a]` (length 1), yet its top-level iteration still yields the raw row
`[1, 2]` of length 2 — the eliminated column is not projected out. -/
theorem fixed_iter_elim_counterexample :
    (Relation.eliminateTempVars (.fixed ["a", "b"] [[.intV 1, .intV 2]] ∅)
      {"a"}).bindingsAfterEliminate = ["a"]
    ∧ (Relation.eliminateTempVars (.fixed ["a", "b"] [[.intV 1, .intV 2]] ∅)
      {"a"}).iter txEmpty none ∅ = .ok [.ok [.intV 1, .intV 2]]
    ∧ ([DataValue.intV 1, .intV 2] : Tuple).length ≠ (["a"] : List Keyword).length := by
  exact ⟨by decide, by decide, by decide⟩

/-- C2, amended: running `eliminate_temp_vars` on a Fixed node never changes
what its top-level iteration yields — the raw data rows are emitted
unprojected (so the multiset of tuples restricted to the used bindings is
trivially preserved, but the tuples have the length of the pre-elimination
binding list, not of `bindings_after_eliminate()`). -/
theorem fixed_iter_emits_raw_rows (b : List Keyword) (d : List (List DataValue))
    (e used : Finset Keyword) (tx : SessionTx) (ep : Option Nat) (ud : Finset TempStoreId) :
    (Relation.eliminateTempVars (.fixed b d e) used).iter tx ep ud = .ok (d.map .ok)
    ∧ (Relation.eliminateTempVars (.fixed b d e) used).iter tx ep ud
      = (Relation.fixed b d e).iter tx ep ud := by
  exact ⟨rfl, rfl⟩

/-- C4: epoch semantics of a Derived relation for both `iter` and
`prefix_join`: epoch `Some(0)` is empty regardless of `use_delta`; epoch
`None` reads the full store (epoch 0); epoch `Some(k+1)` reads the delta for
epoch `k` when the store id is in `use_delta` and the full store otherwise. -/
theorem derived_epoch_semantics (r : DerivedRel) (ud : Finset TempStoreId)
    (left : List (Except Err Tuple)) (L R : List Nat) (elim : Finset Nat) (k : Nat) :
    derivedIter r (some 0) ud = []
    ∧ derivedIter r none ud = r.storage.contents 0
    ∧ derivedIter r (some (k + 1)) ud =
        (if r.storage.id ∈ ud then r.storage.contents k else r.storage.contents 0)
    ∧ derivedPfxJoin r left L R elim (some 0) ud = []
    ∧ derivedPfxJoin r left L R elim none ud = derivedPfxJoinBody r left L R elim 0
    ∧ derivedPfxJoin r left L R elim (some (k + 1)) ud =
        derivedPfxJoinBody r left L R elim (if r.storage.id ∈ ud then k else 0) := by
  refine ⟨rfl, rfl, ?_, rfl, rfl, ?_⟩
  · by_cases h : r.storage.id ∈ ud <;>
      simp [derivedIter, TempStore.scanAllForEpoch, h]
  · by_cases h : r.storage.id ∈ ud <;>
      simp [derivedPfxJoin, pfxJoinScanEpoch, h]

/-- C9: the structural violations fail the query with the corresponding
panic (modelled as the error layer of the iterator construction), producing no
tuples: a right-side join-index list of length three or more hits the
`unreachable!()` arm of the triple-join dispatch, and a Reorder node as the
right child of a Join hits `panic!("joining on reordered")`. -/
theorem structural_violations_fail (r : TripleRel) (left : List (Except Err Tuple))
    (L : List Nat) (r0 r1 r2 : Nat) (rest : List Nat) (tx : SessionTx) (elim : Finset Nat)
    (l c : Relation) (ord lk rk : List Keyword) (te : Finset Keyword) (ep : Option Nat)
    (ud : Finset TempStoreId) :
    tripleJoinDispatch r left L (r0 :: r1 :: r2 :: rest) tx elim = .error "unreachable"
    ∧ (Relation.join l (.reorder c ord) lk rk te).iter tx ep ud
      = .error "joining on reordered" := by
  exact ⟨rfl, rfl⟩

lemma drainStore_first_error (pre : List Tuple) (e : Err) (post : List (Except Err Tuple))
    (idxs : List Nat) :
    drainStore (pre.map .ok ++ .error e :: post) idxs = .error e := by
  induction pre with
  | nil => rfl
  | cons h t ih => simp [drainStore, ih, Except.map]

lemma drainTriplesToStore_first_error (pre : List (AttrId × EntityId × DataValue)) (e : Err)
    (post : List (Except Err (AttrId × EntityId × DataValue))) :
    drainTriplesToStore (pre.map .ok ++ .error e :: post) = .error e := by
  induction pre with
  | nil => rfl
  | cons h t ih => simp [drainTriplesToStore, ih, Except.map]

/-- C10: when the build side of a materialized join, or the attribute scan
materialized by `v_no_index_join`, produces an error part-way through being
drained into the temp store, the returned iterator is exactly the single
error: the result is `[error]` for every probe-side stream, so no tuple is
emitted and the probe side is never consumed. -/
theorem build_error_short_circuits (pre : List Tuple) (e : Err)
    (post leftIter : List (Except Err Tuple)) (L R : List Nat) (n : Nat) (elim : Finset Nat)
    (r : TripleRel) (vIdx : Nat) (scanPre : List (AttrId × EntityId × DataValue))
    (scanPost : List (Except Err (AttrId × EntityId × DataValue))) :
    materializedJoinCore leftIter (pre.map .ok ++ .error e :: post) L R n elim = [.error e]
    ∧ tripleVNoIndexJoin r leftIter vIdx (txWithAScan (scanPre.map .ok ++ .error e :: scanPost))
        elim = [.error e] := by
  constructor
  · unfold materializedJoinCore
    simp only [drainStore_first_error]
  · unfold tripleVNoIndexJoin
    simp only [txWithAScan, drainTriplesToStore_first_error]

lemma lookupMapping_insertMapping (m : List (List DataValue × List Tuple))
    (key k2 : List DataValue) (row : Tuple) :
    lookupMapping (insertMapping m k2 row) key =
      if k2 = key then some ((lookupMapping m key).getD [] ++ [row])
      else lookupMapping m key := by
  induction m with
  | nil => by_cases h : k2 = key <;> simp [insertMapping, lookupMapping, h]
  | cons hd tl ih =>
    obtain ⟨k, rows⟩ := hd
    by_cases h1 : k = k2
    · subst h1
      by_cases h2 : k = key <;> simp [insertMapping, lookupMapping, h2]
    · by_cases h2 : k = key
      · subst h2
        have h3 : ¬ k2 = k := fun hh => h1 hh.symm
        simp [insertMapping, lookupMapping, h1, h3, ih]
      · simp [insertMapping, lookupMapping, h1, h2, ih]

lemma lookupMapping_buildMapping_gen (R : List Nat) (key : List DataValue) :
    ∀ (data : List (List DataValue)) (m : List (List DataValue × List Tuple)),
    lookupMapping
        (data.foldl (fun m row => insertMapping m (R.map fun v => tget row v) row) m) key
      = match lookupMapping m key,
          data.filter (fun rw => decide ((R.map fun v => tget rw v) = key)) with
        | some rows, f => some (rows ++ f)
        | none, [] => none
        | none, f => some f := by
  intro data
  induction data with
  | nil => intro m; cases h : lookupMapping m key <;> simp [h]
  | cons row rest ih =>
    intro m
    rw [List.foldl_cons, ih, lookupMapping_insertMapping]
    by_cases h : (R.map fun v => tget row v) = key
    · simp only [h, if_pos rfl, List.filter_cons, decide_eq_true_eq, if_pos h]
      cases hm : lookupMapping m key with
      | none => simp [List.filter_cons, h]
      | some rows => simp [List.filter_cons, h]
    · simp only [if_neg h, List.filter_cons]
      simp [h]

/-- C3, counterexample: with the two-row fixed data `[[1], [2]]`, probe
`[1]`, join indices `L = R = [0]` and elimination set `{0}`, the multi-row
branch emits `[1, 1]` — position 0 is not projected out (the projected output
`[1]` is not emitted), contradicting the "in every case" part of the claim. -/
theorem fixedJoin_multi_row_elim_counterexample :
    fixedJoin [[.intV 1], [.intV 2]] [.ok [.intV 1]] [0] [0] {0} = [.ok [.intV 1, .intV 1]]
    ∧ applyElim {0} [.intV 1, .intV 1] = [.intV 1]
    ∧ Except.ok ([DataValue.intV 1] : Tuple)
        ∉ fixedJoin [[.intV 1], [.intV 2]] [.ok [.intV 1]] [0] [0] {0} := by
  exact ⟨by decide, by decide, by decide⟩

/-- C3, amended: `InlineFixedRelation::join` yields the empty result on empty
data; with exactly one row it emits `probe ++ row` with the positions in `E`
projected out whenever the probe values at `L` equal the row values at `R`
pairwise in order; with two or more rows it emits `probe ++ row` for each row
whose `R`-key equals the probe's `L`-key — but in the multi-row branch the
positions in `E` are NOT projected out. Probe-side errors pass through in
every branch. -/
theorem fixedJoin_branch_semantics (left : List (Except Err Tuple)) (L R : List Nat)
    (elim : Finset Nat) (row r1 r2 : List DataValue) (rest : List (List DataValue)) :
    fixedJoin [] left L R elim = []
    ∧ fixedJoin [row] left L R elim = (left.flatMap fun item =>
        match item with
        | .error e => [.error e]
        | .ok t =>
          if (L.map fun v => tget t v) = (R.map fun v => tget row v)
          then [.ok (applyElim elim (t ++ row))] else [])
    ∧ fixedJoin (r1 :: r2 :: rest) left L R elim = (left.flatMap fun item =>
        match item with
        | .error e => [.error e]
        | .ok t =>
          ((r1 :: r2 :: rest).filter fun rw =>
            decide ((R.map fun v => tget rw v) = (L.map fun v => tget t v))).map
              fun rw => .ok (t ++ rw)) := by
  refine ⟨rfl, rfl, ?_⟩
  have hfix : fixedJoin (r1 :: r2 :: rest) left L R elim
      = left.flatMap fun item =>
        match item with
        | Except.error e => [Except.error e]
        | Except.ok t =>
          match lookupMapping (buildMapping (r1 :: r2 :: rest) R) (L.map fun v => tget t v) with
          | none => []
          | some rows => rows.map fun row => Except.ok (t ++ row) := rfl
  rw [hfix]
  congr 1
  funext item
  cases item with
  | error e => rfl
  | ok t =>
    change (match lookupMapping (buildMapping (r1 :: r2 :: rest) R)
          (List.map (fun v => tget t v) L) with
      | none => ([] : List (Except Err Tuple))
      | some rows => List.map (fun row => Except.ok (t ++ row)) rows)
      = List.map (fun rw => Except.ok (t ++ rw))
        (List.filter (fun rw => decide (List.map (fun v => tget rw v) R
          = List.map (fun v => tget t v) L)) (r1 :: r2 :: rest))
    rw [show (buildMapping (r1 :: r2 :: rest) R)
        = ((r1 :: r2 :: rest).foldl
          (fun m row => insertMapping m (R.map fun v => tget row v) row) []) from rfl,
      lookupMapping_buildMapping_gen]
    cases hf : (r1 :: r2 :: rest).filter
        (fun rw => decide ((R.map fun v => tget rw v) = (L.map fun v => tget t v))) with
    | nil => simp [lookupMapping, hf]
    | cons f fs => simp [lookupMapping, hf]

/-- C7: the filter node emits exactly the parent tuples on which the
predicate evaluates to `Ok(true)` (projected through the elimination set),
drops the `Ok(false)` ones, and an error — from the parent or from predicate
evaluation — is surfaced as that tuple's result. -/
theorem filter_iter_semantics (pred : Tuple → Except Err Bool) (elim : Finset Nat)
    (parent : List (Except Err Tuple)) (e : Err) :
    okList (filteredIterCore pred elim parent)
      = ((okList parent).filter fun t => decide (pred t = .ok true)).map (applyElim elim)
    ∧ (.error e ∈ filteredIterCore pred elim parent ↔
        (.error e ∈ parent ∨ ∃ t, .ok t ∈ parent ∧ pred t = .error e)) := by
  constructor
  · induction parent with
    | nil => rfl
    | cons item rest ih =>
      cases item with
      | error e2 => simpa [filteredIterCore, okList] using ih
      | ok t =>
        cases hp : pred t with
        | ok b =>
          cases b with
          | true => simp [filteredIterCore, okList, hp] at ih ⊢; exact ih
          | false => simp [filteredIterCore, okList, hp] at ih ⊢; exact ih
        | error e2 => simp [filteredIterCore, okList, hp] at ih ⊢; exact ih
  · unfold filteredIterCore
    rw [List.mem_flatMap]
    constructor
    · rintro ⟨item, hmem, hin⟩
      cases item with
      | error e2 =>
        simp only [List.mem_singleton] at hin
        cases hin
        exact Or.inl hmem
      | ok t =>
        have hin2 : Except.error e ∈ (match pred t with
          | Except.ok true => [Except.ok (applyElim elim t)]
          | Except.ok false => ([] : List (Except Err Tuple))
          | Except.error e2 => [Except.error e2]) := hin
        cases hp : pred t with
        | ok b =>
          rw [hp] at hin2
          cases b <;> simp at hin2
        | error e2 =>
          rw [hp] at hin2
          simp only [List.mem_singleton] at hin2
          cases hin2
          exact Or.inr ⟨t, hmem, hp⟩
    · rintro (h | ⟨t, hmem, hp⟩)
      · exact ⟨.error e, h, by simp⟩
      · exact ⟨.ok t, hmem, by simp [hp]⟩

lemma bindingMapGet_eq_none_iff (bs : List Keyword) (k : Keyword) :
    bindingMapGet bs k = none ↔ k ∉ bs := by
  unfold bindingMapGet
  rw [List.getLast?_eq_none_iff, List.filterMap_eq_nil_iff]
  constructor
  · intro h hk
    obtain ⟨i, hi, hik⟩ := List.mem_iff_getElem.mp hk
    have hmem : (i, k) ∈ bs.enum := by
      rw [List.mk_mem_enum_iff_getElem?]
      simp [List.getElem?_eq_getElem hi, hik]
    have := h (i, k) hmem
    simp at this
  · rintro h ⟨i, v⟩ hp
    rw [List.mk_mem_enum_iff_getElem?] at hp
    have hvmem : v ∈ bs := by
      rw [List.mem_iff_getElem]
      have hlt := List.getElem?_eq_some_iff.mp hp
      exact ⟨i, hlt.1, hlt.2⟩
    have : ¬ v = k := fun hv => h (hv ▸ hvmem)
    simp [this]

lemma bindingMapGet_some (bs : List Keyword) (k : Keyword) (i : Nat)
    (h : bindingMapGet bs k = some i) : ∃ hlt : i < bs.length, bs[i] = k := by
  unfold bindingMapGet at h
  have hne : (bs.enum.filterMap fun p => if p.2 = k then some p.1 else none) ≠ [] := by
    intro hnil
    rw [hnil] at h
    simp at h
  have hlast := List.getLast?_eq_getLast _ hne
  rw [hlast] at h
  have hmem : i ∈ bs.enum.filterMap fun p => if p.2 = k then some p.1 else none :=
    Option.some_inj.mp h ▸ List.getLast_mem hne
  rw [List.mem_filterMap] at hmem
  obtain ⟨⟨j, v⟩, hj, hjv⟩ := hmem
  by_cases hv : v = k
  · rw [hv, if_pos rfl] at hjv
    have hji : j = i := Option.some_inj.mp hjv
    subst hji
    subst hv
    rw [List.mk_mem_enum_iff_getElem?] at hj
    have hlt := List.getElem?_eq_some_iff.mp hj
    exact ⟨hlt.1, hlt.2⟩
  · simp [hv] at hjv

lemma bindingMapGet_mem (bs : List Keyword) (k : Keyword) (i : Nat)
    (h : bindingMapGet bs k = some i) : k ∈ bs := by
  obtain ⟨hlt, hik⟩ := bindingMapGet_some bs k i h
  exact hik ▸ List.getElem_mem hlt

lemma bindingMapGet_nodup_eq (bs : List Keyword) (k : Keyword) (i : Nat) (hnd : bs.Nodup)
    (h : bindingMapGet bs k = some i) : i = bs.indexOf k := by
  obtain ⟨hlt, hik⟩ := bindingMapGet_some bs k i h
  have := List.get_indexOf hnd ⟨i, hlt⟩
  simp only [List.get_eq_getElem, hik] at this
  exact this.symm

lemma joinIndicesAux_spec (lb rb : List Keyword) (hnl : lb.Nodup) (hnr : rb.Nodup) :
    ∀ pairs : List (Keyword × Keyword),
    (∀ L R, joinIndicesAux lb rb pairs = .ok (L, R) →
      L = pairs.map (fun p => lb.indexOf p.1) ∧ R = pairs.map (fun p => rb.indexOf p.2))
    ∧ ((∃ e, joinIndicesAux lb rb pairs = .error e) ↔ ∃ p ∈ pairs, p.1 ∉ lb ∨ p.2 ∉ rb)
    ∧ (∀ e, joinIndicesAux lb rb pairs = .error e →
      (∃ p ∈ pairs, e = .logicLeftKeyNotFound p.1 ∧ p.1 ∉ lb)
      ∨ (∃ p ∈ pairs, e = .logicRightKeyNotFound p.2 ∧ p.2 ∉ rb)) := by
  intro pairs
  induction pairs with
  | nil =>
    refine ⟨?_, ?_, ?_⟩
    · intro L R h
      simp only [joinIndicesAux] at h
      cases h
      exact ⟨rfl, rfl⟩
    · simp [joinIndicesAux]
    · intro e h
      simp [joinIndicesAux] at h
  | cons pr rest ih =>
    obtain ⟨l, r⟩ := pr
    obtain ⟨ihok, iherr, ihnames⟩ := ih
    cases hl : bindingMapGet lb l with
    | none =>
      have hlnotin : l ∉ lb := (bindingMapGet_eq_none_iff lb l).mp hl
      refine ⟨?_, ?_, ?_⟩
      · intro L R h
        simp [joinIndicesAux, hl] at h
      · constructor
        · intro _
          exact ⟨(l, r), List.mem_cons_self _ _, Or.inl hlnotin⟩
        · intro _
          exact ⟨.logicLeftKeyNotFound l, by simp [joinIndicesAux, hl]⟩
      · intro e h
        simp only [joinIndicesAux, hl] at h
        cases h
        exact Or.inl ⟨(l, r), List.mem_cons_self _ _, rfl, hlnotin⟩
    | some lp =>
      have hlin : l ∈ lb := bindingMapGet_mem lb l lp hl
      cases hr : bindingMapGet rb r with
      | none =>
        have hrnotin : r ∉ rb := (bindingMapGet_eq_none_iff rb r).mp hr
        refine ⟨?_, ?_, ?_⟩
        · intro L R h
          simp [joinIndicesAux, hl, hr] at h
        · constructor
          · intro _
            exact ⟨(l, r), List.mem_cons_self _ _, Or.inr hrnotin⟩
          · intro _
            exact ⟨.logicRightKeyNotFound r, by simp [joinIndicesAux, hl, hr]⟩
        · intro e h
          simp only [joinIndicesAux, hl, hr] at h
          cases h
          exact Or.inr ⟨(l, r), List.mem_cons_self _ _, rfl, hrnotin⟩
      | some rp =>
        have hrin : r ∈ rb := bindingMapGet_mem rb r rp hr
        have hstep : joinIndicesAux lb rb ((l, r) :: rest)
            = (joinIndicesAux lb rb rest).map fun pr2 => (lp :: pr2.1, rp :: pr2.2) := by
          simp [joinIndicesAux, hl, hr]
        refine ⟨?_, ?_, ?_⟩
        · intro L R h
          rw [hstep] at h
          cases hrest : joinIndicesAux lb rb rest with
          | error e => rw [hrest] at h; simp [Except.map] at h
          | ok pr2 =>
            rw [hrest] at h
            simp only [Except.map, Except.ok.injEq] at h
            obtain ⟨hL1, hR1⟩ := ihok pr2.1 pr2.2 (by rw [hrest])
            have hcons : L = lp :: pr2.1 ∧ R = rp :: pr2.2 := by
              cases h
              exact ⟨rfl, rfl⟩
            obtain ⟨hL2, hR2⟩ := hcons
            subst hL2
            subst hR2
            constructor
            · rw [List.map_cons, ← hL1,
                bindingMapGet_nodup_eq lb l lp hnl hl]
            · rw [List.map_cons, ← hR1,
                bindingMapGet_nodup_eq rb r rp hnr hr]
        · rw [hstep]
          constructor
          · rintro ⟨e, he⟩
            cases hrest : joinIndicesAux lb rb rest with
            | error e2 =>
              obtain ⟨p, hp, hcase⟩ := iherr.mp ⟨e2, hrest⟩
              exact ⟨p, List.mem_cons_of_mem _ hp, hcase⟩
            | ok pr2 => rw [hrest] at he; simp [Except.map] at he
          · rintro ⟨p, hp, hcase⟩
            rcases List.mem_cons.mp hp with heq | hmem
            · subst heq
              rcases hcase with hc | hc
              · exact absurd hlin hc
              · exact absurd hrin hc
            · obtain ⟨e, he⟩ := iherr.mpr ⟨p, hmem, hcase⟩
              exact ⟨e, by rw [he]; rfl⟩
        · intro e h
          rw [hstep] at h
          cases hrest : joinIndicesAux lb rb rest with
          | error e2 =>
            rw [hrest] at h
            have he2 : e2 = e := by
              simp only [Except.map] at h
              cases h
              rfl
            subst he2
            rcases ihnames e2 hrest with ⟨p, hp, hn⟩ | ⟨p, hp, hn⟩
            · exact Or.inl ⟨p, List.mem_cons_of_mem _ hp, hn⟩
            · exact Or.inr ⟨p, List.mem_cons_of_mem _ hp, hn⟩
          | ok pr2 => rw [hrest] at h; simp [Except.map] at h

lemma mem_zip_left {α β : Type _} {a : α} {l1 : List α} {l2 : List β}
    (hlen : l1.length = l2.length) (h : a ∈ l1) : ∃ b, (a, b) ∈ l1.zip l2 := by
  obtain ⟨i, hi, rfl⟩ := List.mem_iff_getElem.mp h
  have hi2 : i < l2.length := hlen ▸ hi
  have hzi : i < (l1.zip l2).length := by
    rw [List.length_zip, hlen, Nat.min_self]
    exact hlen ▸ hi
  exact ⟨l2[i], by
    rw [List.mem_iff_getElem]
    exact ⟨i, hzi, by rw [List.getElem_zip]⟩⟩

lemma mem_zip_right {α β : Type _} {b : β} {l1 : List α} {l2 : List β}
    (hlen : l1.length = l2.length) (h : b ∈ l2) : ∃ a, (a, b) ∈ l1.zip l2 := by
  obtain ⟨i, hi, rfl⟩ := List.mem_iff_getElem.mp h
  have hi1 : i < l1.length := hlen ▸ hi
  have hzi : i < (l1.zip l2).length := by
    rw [List.length_zip, hlen, Nat.min_self]
    exact hi
  exact ⟨l1[i], by
    rw [List.mem_iff_getElem]
    exact ⟨i, hzi, by rw [List.getElem_zip]⟩⟩

/-- C8: `Joiner::join_indices` translates each `(left_keys[i], right_keys[i])`
pair into the positional indices of those keys in the respective
post-elimination binding lists, and fails if and only if some left key is
absent from the left bindings or some right key is absent from the right
bindings; the logic error returned names the missing key. -/
theorem joiner_join_indices_spec (lk rk lb rb : List Keyword)
    (hnl : lb.Nodup) (hnr : rb.Nodup) (hlen : lk.length = rk.length) :
    (∀ L R, joinIndices lk rk lb rb = .ok (L, R) →
      L = lk.map (fun k => lb.indexOf k) ∧ R = rk.map (fun k => rb.indexOf k))
    ∧ ((∃ e, joinIndices lk rk lb rb = .error e) ↔
        ((∃ k ∈ lk, k ∉ lb) ∨ (∃ k ∈ rk, k ∉ rb)))
    ∧ (∀ e, joinIndices lk rk lb rb = .error e →
      (∃ k ∈ lk, e = .logicLeftKeyNotFound k ∧ k ∉ lb)
      ∨ (∃ k ∈ rk, e = .logicRightKeyNotFound k ∧ k ∉ rb)) := by
  obtain ⟨hok, herr, hnames⟩ := joinIndicesAux_spec lb rb hnl hnr (lk.zip rk)
  refine ⟨?_, ?_, ?_⟩
  · intro L R h
    obtain ⟨hL, hR⟩ := hok L R h
    constructor
    · rw [hL, show (fun p : Keyword × Keyword => lb.indexOf p.1)
          = (fun k => lb.indexOf k) ∘ Prod.fst from rfl,
        ← List.map_map, List.map_fst_zip _ _ (le_of_eq hlen)]
    · rw [hR, show (fun p : Keyword × Keyword => rb.indexOf p.2)
          = (fun k => rb.indexOf k) ∘ Prod.snd from rfl,
        ← List.map_map, List.map_snd_zip _ _ (ge_of_eq hlen)]
  · rw [show joinIndices lk rk lb rb = joinIndicesAux lb rb (lk.zip rk) from rfl, herr]
    constructor
    · rintro ⟨⟨pl, pr⟩, hp, hcase⟩
      obtain ⟨hpl, hpr⟩ := List.of_mem_zip hp
      rcases hcase with hc | hc
      · exact Or.inl ⟨pl, hpl, hc⟩
      · exact Or.inr ⟨pr, hpr, hc⟩
    · rintro (⟨k, hk, hnot⟩ | ⟨k, hk, hnot⟩)
      · obtain ⟨b, hb⟩ := mem_zip_left hlen hk
        exact ⟨(k, b), hb, Or.inl hnot⟩
      · obtain ⟨a, ha⟩ := mem_zip_right hlen hk
        exact ⟨(a, k), ha, Or.inr hnot⟩
  · intro e h
    rcases hnames e h with ⟨⟨pl, pr⟩, hp, hn, hnot⟩ | ⟨⟨pl, pr⟩, hp, hn, hnot⟩
    · exact Or.inl ⟨pl, (List.of_mem_zip hp).1, hn, hnot⟩
    · exact Or.inr ⟨pr, (List.of_mem_zip hp).2, hn, hnot⟩

/-- Witness for the `Joiner::join_indices` specification at a concrete
instance: bindings `[a, b]` and `[c, d]`, keys `[b]` and `[d]`. -/
theorem joiner_join_indices_spec_witness :
    (∀ L R, joinIndices ["b"] ["d"] ["a", "b"] ["c", "d"] = .ok (L, R) →
      L = (["b"] : List Keyword).map (fun k => (["a", "b"] : List Keyword).indexOf k)
      ∧ R = (["d"] : List Keyword).map (fun k => (["c", "d"] : List Keyword).indexOf k))
    ∧ ((∃ e, joinIndices ["b"] ["d"] ["a", "b"] ["c", "d"] = .error e) ↔
        ((∃ k ∈ (["b"] : List Keyword), k ∉ (["a", "b"] : List Keyword))
          ∨ (∃ k ∈ (["d"] : List Keyword), k ∉ (["c", "d"] : List Keyword))))
    ∧ (∀ e, joinIndices ["b"] ["d"] ["a", "b"] ["c", "d"] = .error e →
      (∃ k ∈ (["b"] : List Keyword), e = .logicLeftKeyNotFound k
        ∧ k ∉ (["a", "b"] : List Keyword))
      ∨ (∃ k ∈ (["d"] : List Keyword), e = .logicRightKeyNotFound k
        ∧ k ∉ (["c", "d"] : List Keyword))) :=
  joiner_join_indices_spec ["b"] ["d"] ["a", "b"] ["c", "d"]
    (by decide) (by decide) (by decide)

lemma sortPairsBySnd_perm (l : List (Nat × Nat)) : (sortPairsBySnd l).Perm l :=
  List.perm_insertionSort _ l

lemma sortPairsBySnd_length (l : List (Nat × Nat)) : (sortPairsBySnd l).length = l.length :=
  (sortPairsBySnd_perm l).length_eq

lemma sortPairsBySnd_sorted (l : List (Nat × Nat)) :
    List.Sorted (fun a b : Nat × Nat => a.2 ≤ b.2) (sortPairsBySnd l) := by
  haveI : IsTotal (Nat × Nat) (fun a b : Nat × Nat => a.2 ≤ b.2) :=
    ⟨fun a b => le_total a.2 b.2⟩
  haveI : IsTrans (Nat × Nat) (fun a b : Nat × Nat => a.2 ≤ b.2) :=
    ⟨fun _ _ _ hab hbc => le_trans hab hbc⟩
  exact List.sorted_insertionSort _ l

lemma enum_mem_spec {α : Type _} {l : List α} {p : Nat × α} (h : p ∈ l.enum) :
    p.1 < l.length ∧ l[p.1]? = some p.2 := by
  obtain ⟨i, v⟩ := p
  rw [List.mk_mem_enum_iff_getElem?] at h
  exact ⟨(List.getElem?_eq_some_iff.mp h).1, h⟩

lemma takeWhile_getD {α : Type _} (p : α → Bool) (d : α) :
    ∀ (l : List α) (j : Nat), j < (l.takeWhile p).length →
      (l.takeWhile p).getD j d = l.getD j d ∧ p (l.getD j d) = true := by
  intro l
  induction l with
  | nil => intro j h; simp [List.takeWhile] at h
  | cons hd tl ih =>
    intro j h
    cases hp : p hd with
    | false => rw [List.takeWhile_cons, hp] at h; simp at h
    | true =>
      cases j with
      | zero => constructor <;> simp [List.takeWhile_cons, hp]
      | succ j =>
        have h2 : j < (tl.takeWhile p).length := by
          rw [List.takeWhile_cons, hp] at h
          simpa using h
        have := ih j h2
        rw [List.takeWhile_cons, hp]
        simpa using this

lemma negJoin_fullmatch_takes_pfx (L R : List Nat) (n : Nat) (t found : Tuple)
    (hLR : L.length = R.length) (hR : ∀ i ∈ R, i < n) (hfound : found.length = n)
    (hmatch : ∀ p ∈ L.zip R, tget t p.1 = tget found p.2) :
    found.take ((negJoinPfxIndices L R).map fun i => tget t i).length
      = (negJoinPfxIndices L R).map fun i => tget t i := by
  have key : ∀ j, j < ((negJoinPfxIndices L R).map fun i => tget t i).length →
      j < n ∧ ((negJoinPfxIndices L R).map fun i => tget t i).getD j (.enId 0)
        = found.getD j (.enId 0) := by
    intro j hj
    have hjtw : j < ((sortPairsBySnd R.enum).enum.takeWhile fun p =>
        p.1 == p.2.2).length := by
      simpa [negJoinPfxIndices] using hj
    have hjse : j < (sortPairsBySnd R.enum).enum.length :=
      lt_of_lt_of_le hjtw (List.takeWhile_sublist _).length_le
    have hjs : j < (sortPairsBySnd R.enum).length := by
      simpa [List.enum_length] using hjse
    obtain ⟨htwj, hpred⟩ :=
      takeWhile_getD (fun p => p.1 == p.2.2) (0, (0, 0)) (sortPairsBySnd R.enum).enum j hjtw
    have henum : (sortPairsBySnd R.enum).enum.getD j (0, (0, 0))
        = (j, (sortPairsBySnd R.enum)[j]) := by
      rw [List.getD_eq_getElem _ _ hjse, List.getElem_enum]
    rw [henum] at htwj hpred
    have hsnd : ((sortPairsBySnd R.enum)[j]).2 = j := (eq_of_beq hpred).symm
    have hmemRe : (sortPairsBySnd R.enum)[j] ∈ R.enum :=
      (sortPairsBySnd_perm R.enum).mem_iff.mp (List.getElem_mem hjs)
    obtain ⟨ha, haj⟩ := enum_mem_spec hmemRe
    set a := ((sortPairsBySnd R.enum)[j]).1 with hadef
    rw [hsnd] at haj
    have haR : R[a] = j := (List.getElem?_eq_some_iff.mp haj).2
    have hjR : j ∈ R := haR ▸ List.getElem_mem ha
    have hjn : j < n := hR j hjR
    have haL : a < L.length := hLR ▸ ha
    have hzipmem : (L[a], R[a]) ∈ L.zip R := by
      rw [List.mem_iff_getElem]
      refine ⟨a, ?_, List.getElem_zip⟩
      rw [List.length_zip, hLR, Nat.min_self]
      exact ha
    have hmatcha : tget t (L[a]) = tget found (R[a]) := hmatch _ hzipmem
    refine ⟨hjn, ?_⟩
    have hjp : j < (negJoinPfxIndices L R).length := by
      simpa [negJoinPfxIndices] using hjtw
    have htwg : ((sortPairsBySnd R.enum).enum.takeWhile fun p => p.1 == p.2.2)[j]
        = (j, (sortPairsBySnd R.enum)[j]) := by
      rw [← List.getD_eq_getElem _ (0, (0, 0)) hjtw]
      exact htwj
    have hidx : (negJoinPfxIndices L R)[j]? = some (L.getD a 0) := by
      rw [show negJoinPfxIndices L R
          = (((sortPairsBySnd R.enum).enum.takeWhile fun p => p.1 == p.2.2).map
            fun p => L.getD p.2.1 0) from rfl]
      rw [List.getElem?_map, List.getElem?_eq_getElem hjtw, htwg]
      rfl
    have hpfxj : ((negJoinPfxIndices L R).map fun i => tget t i).getD j (.enId 0)
        = tget t (L.getD a 0) := by
      rw [List.getD_eq_getElem?_getD, List.getElem?_map, hidx]
      rfl
    rw [hpfxj, List.getD_eq_getElem L 0 haL, hmatcha, haR]
    rfl
  have hmn : ((negJoinPfxIndices L R).map fun i => tget t i).length ≤ n := by
    by_contra hc
    push_neg at hc
    exact absurd (key n hc).1 (lt_irrefl n)
  apply List.ext_getElem
  · rw [List.length_take, hfound]
    exact Nat.min_eq_left hmn
  · intro j h1 h2
    have hjlt : j < ((negJoinPfxIndices L R).map fun i => tget t i).length := h2
    obtain ⟨hjn, hgd⟩ := key j hjlt
    rw [List.getElem_take]
    rw [← List.getD_eq_getElem found (.enId 0) (hfound ▸ hjn),
      ← List.getD_eq_getElem _ (.enId 0) hjlt]
    exact hgd.symm

/-- C5, counterexample: for paired indices `L = [10, 20]`, `R = [1, 0]` the
code builds the scan prefix from BOTH probe columns, reordered to `[20, 10]`
(the right indices sorted are `[0, 1]`), whereas the longest identity prefix
of `R = [1, 0]` is empty, so the claimed construction yields `[]`. -/
theorem negJoin_pfx_counterexample :
    negJoinPfxIndices [10, 20] [1, 0] = [20, 10]
    ∧ identityPfxIndices [10, 20] [1, 0] = []
    ∧ negJoinPfxIndices [10, 20] [1, 0] ≠ identityPfxIndices [10, 20] [1, 0] := by
  exact ⟨by decide, by decide, by decide⟩

/-- C5, amended: the emission biconditional holds — a probe tuple is emitted
by `neg_join` if and only if no stored tuple (epoch 0) agrees with it on every
paired `(L[i], R[i])` column — but the scan prefix is built from the probe
columns paired, in increasing right-index order, with the longest initial run
of the sorted right indices in which the i-th smallest right index equals `i`
(not from the longest identity prefix of `R` as positioned). The prefix never
excludes a fully agreeing stored tuple, so the scan-and-verify loop is
equivalent to scanning the whole store. -/
theorem derived_neg_join_spec (r : DerivedRel) (left : List (Except Err Tuple))
    (L R : List Nat) (n : Nat) (hLR : L.length = R.length) (hR : ∀ i ∈ R, i < n)
    (hstore : ∀ found ∈ r.storage.contents 0, found.length = n) :
    derivedNegJoin r left L R = left.flatMap fun item =>
      match item with
      | .error e => [.error e]
      | .ok t =>
        if (r.storage.contents 0).any (fun found =>
            (L.zip R).all fun p => tget t p.1 == tget found p.2) then []
        else [.ok t] := by
  have hneg : derivedNegJoin r left L R = left.flatMap fun item =>
      match item with
      | Except.error e => [Except.error e]
      | Except.ok t =>
        if (r.storage.scanPfx0 ((negJoinPfxIndices L R).map fun i => tget t i)).any
            (fun found => (L.zip R).all fun p => tget t p.1 == tget found p.2)
        then [] else [Except.ok t] := rfl
  rw [hneg]
  congr 1
  funext item
  cases item with
  | error e => rfl
  | ok t =>
    have hany : (r.storage.scanPfx0 ((negJoinPfxIndices L R).map fun i => tget t i)).any
        (fun found => (L.zip R).all fun p => tget t p.1 == tget found p.2)
      = (r.storage.contents 0).any
        (fun found => (L.zip R).all fun p => tget t p.1 == tget found p.2) := by
      rw [Bool.eq_iff_iff, List.any_eq_true, List.any_eq_true]
      constructor
      · rintro ⟨x, hx, hfx⟩
        refine ⟨x, ?_, hfx⟩
        exact (List.mem_filter.mp hx).1
      · rintro ⟨x, hx, hfx⟩
        refine ⟨x, ?_, hfx⟩
        rw [show r.storage.scanPfx0 ((negJoinPfxIndices L R).map fun i => tget t i)
            = (r.storage.contents 0).filter (fun tu => decide
              (tu.take ((negJoinPfxIndices L R).map fun i => tget t i).length
                = (negJoinPfxIndices L R).map fun i => tget t i)) from rfl]
        rw [List.mem_filter]
        refine ⟨hx, ?_⟩
        rw [decide_eq_true_iff]
        apply negJoin_fullmatch_takes_pfx L R n t x hLR hR (hstore x hx)
        intro p hp
        have := List.all_eq_true.mp hfx p hp
        exact eq_of_beq this
    simp only [hany]

/-- Witness for the neg-join specification at a concrete instance. -/
theorem derived_neg_join_spec_witness :
    derivedNegJoin c5Derived [.ok [.intV 6]] [0] [1]
      = [Except.ok ([DataValue.intV 6] : Tuple)].flatMap fun item =>
        match item with
        | .error e => [.error e]
        | .ok t =>
          if (c5Derived.storage.contents 0).any (fun found =>
              (([0] : List Nat).zip ([1] : List Nat)).all fun p =>
                tget t p.1 == tget found p.2) then []
          else [.ok t] :=
  derived_neg_join_spec c5Derived [.ok [.intV 6]] [0] [1] 2 (by decide)
    (by decide)
    (by
      intro found h
      have hf : found = [DataValue.intV 5, .intV 6] := by simpa [c5Derived] using h
      rw [hf]
      rfl)

lemma rightStoreIndices_nodup (R : List Nat) (n : Nat) (hnd : R.Nodup) :
    (rightStoreIndicesOf R n).Nodup := by
  unfold rightStoreIndicesOf
  refine List.Nodup.append hnd (List.Nodup.filter _ (List.nodup_range n)) ?_
  intro a haR hafil
  rw [List.mem_filter] at hafil
  have h2 := hafil.2
  simp only [decide_eq_true_eq] at h2
  exact h2 (by simpa using haR)

lemma rightStoreIndices_perm (R : List Nat) (n : Nat) (hnd : R.Nodup)
    (hRn : ∀ i ∈ R, i < n) : (rightStoreIndicesOf R n).Perm (List.range n) := by
  rw [List.perm_ext_iff_of_nodup (rightStoreIndices_nodup R n hnd) (List.nodup_range n)]
  intro a
  rw [List.mem_range]
  unfold rightStoreIndicesOf
  rw [List.mem_append, List.mem_filter, List.mem_range]
  constructor
  · rintro (h | ⟨h, _⟩)
    · exact hRn a h
    · exact h
  · intro h
    by_cases hm : a ∈ R
    · exact Or.inl hm
    · refine Or.inr ⟨h, ?_⟩
      simp [hm]

lemma rightStoreIndices_length (R : List Nat) (n : Nat) (hnd : R.Nodup)
    (hRn : ∀ i ∈ R, i < n) : (rightStoreIndicesOf R n).length = n :=
  (rightStoreIndices_perm R n hnd hRn).length_eq.trans (List.length_range n)

lemma sortPairsBySnd_enum_snd_eq_range (s : List Nat) (n : Nat)
    (hperm : s.Perm (List.range n)) :
    (sortPairsBySnd s.enum).map Prod.snd = List.range n := by
  have h1 : ((sortPairsBySnd s.enum).map Prod.snd).Perm (List.range n) := by
    have h0 := (sortPairsBySnd_perm s.enum).map Prod.snd
    rw [List.enum_map_snd] at h0
    exact h0.trans hperm
  have h2 : List.Sorted (· ≤ ·) ((sortPairsBySnd s.enum).map Prod.snd) :=
    List.Pairwise.map _ (fun _ _ h => h) (sortPairsBySnd_sorted s.enum)
  exact List.eq_of_perm_of_sorted h1 h2 (List.sorted_le_range n)

/-- The inverse-permutation restore of `materialized_join`: reading the stored
(reordered) tuple back through `right_invert_indices` recovers the original
tuple. -/
lemma invert_indices_restore (s : List Nat) (n : Nat)
    (hperm : s.Perm (List.range n)) (orig : Tuple) (horig : orig.length = n) :
    ((sortPairsBySnd s.enum).map Prod.fst).map
        (fun i => tget (s.map fun j => tget orig j) i) = orig := by
  have hslen : s.length = n := hperm.length_eq.trans (List.length_range n)
  have hsortlen : (sortPairsBySnd s.enum).length = n := by
    rw [sortPairsBySnd_length, List.enum_length, hslen]
  have hsnd := sortPairsBySnd_enum_snd_eq_range s n hperm
  apply List.ext_getElem
  · simp [hsortlen, horig]
  · intro j h1 h2
    have hj : j < n := horig ▸ h2
    have hjs : j < (sortPairsBySnd s.enum).length := hsortlen ▸ hj
    have hsndj : ((sortPairsBySnd s.enum)[j]).2 = j := by
      have hb : j < ((sortPairsBySnd s.enum).map Prod.snd).length := by
        rw [List.length_map]
        exact hjs
      have hr : j < (List.range n).length := by
        rw [List.length_range]
        exact hj
      calc ((sortPairsBySnd s.enum)[j]).2
          = ((sortPairsBySnd s.enum).map Prod.snd)[j] := (List.getElem_map _).symm
        _ = (List.range n)[j] := by
            have := congrArg (fun l => l[j]?) hsnd
            simp only [List.getElem?_eq_getElem hb, List.getElem?_eq_getElem hr] at this
            exact Option.some_inj.mp this
        _ = j := List.getElem_range _ _
    have hmem : (sortPairsBySnd s.enum)[j] ∈ s.enum :=
      (sortPairsBySnd_perm s.enum).mem_iff.mp (List.getElem_mem hjs)
    obtain ⟨ha, haj⟩ := enum_mem_spec hmem
    rw [hsndj] at haj
    have hsa : s[((sortPairsBySnd s.enum)[j]).1] = j :=
      (List.getElem?_eq_some_iff.mp haj).2
    have hfst : (((sortPairsBySnd s.enum).map Prod.fst).map
        (fun i => tget (s.map fun j2 => tget orig j2) i))[j]
        = tget (s.map fun j2 => tget orig j2) (((sortPairsBySnd s.enum)[j]).1) := by
      rw [List.getElem_map, List.getElem_map]
    rw [hfst]
    have hmap : tget (s.map fun j2 => tget orig j2) (((sortPairsBySnd s.enum)[j]).1)
        = tget orig (s[((sortPairsBySnd s.enum)[j]).1]) := by
      show (s.map fun j2 => tget orig j2).getD _ (.enId 0) = _
      rw [List.getD_eq_getElem _ _ (by rw [List.length_map]; exact ha), List.getElem_map]
    rw [hmap, hsa]
    show orig.getD j (.enId 0) = _
    rw [List.getD_eq_getElem _ _ h2]

lemma drainStore_ok_mem (idxs : List Nat) :
    ∀ (rightIter : List (Except Err Tuple)) (store : List Tuple),
    drainStore rightIter idxs = .ok store →
    ∀ srow ∈ store, ∃ orig, .ok orig ∈ rightIter ∧ srow = idxs.map fun i => tget orig i := by
  intro rightIter
  induction rightIter with
  | nil =>
    intro store h srow hs
    have h0 : ([] : List Tuple) = store := by
      simpa [drainStore] using h
    rw [← h0] at hs
    simp at hs
  | cons item rest ih =>
    intro store h srow hs
    cases item with
    | error e => simp [drainStore] at h
    | ok t =>
      rw [show drainStore (Except.ok t :: rest) idxs
          = (drainStore rest idxs).map (fun l => (idxs.map fun i => tget t i) :: l) from rfl]
        at h
      cases hrest : drainStore rest idxs with
      | error e => rw [hrest] at h; simp [Except.map] at h
      | ok store2 =>
        rw [hrest] at h
        have hst : (idxs.map fun i => tget t i) :: store2 = store := by
          simpa [Except.map] using h
        rw [← hst] at hs
        rcases List.mem_cons.mp hs with h1 | h1
        · exact ⟨t, List.mem_cons_self _ _, h1⟩
        · obtain ⟨orig, ho, he⟩ := ih store2 hrest srow h1
          exact ⟨orig, List.mem_cons_of_mem _ ho, he⟩

/-- C6: every successful output of a materialized join is
`probe ++ right-tuple-in-original-column-order` (with the elimination
positions projected out): the build side is keyed with the `R`-columns first,
and the recorded inverse permutation restores the right tuple's original
column order on emit; the prefix match forces the right tuple's `R`-columns to
equal the probe's `L`-columns. -/
theorem materialized_join_restores_order (leftIter rightIter : List (Except Err Tuple))
    (L R : List Nat) (n : Nat) (elim : Finset Nat)
    (hnd : R.Nodup) (hRn : ∀ i ∈ R, i < n) (hLR : L.length = R.length)
    (hright : ∀ t, Except.ok t ∈ rightIter → t.length = n) :
    ∀ out ∈ materializedJoinCore leftIter rightIter L R n elim,
      (∃ e, out = .error e) ∨
      ∃ t orig, .ok t ∈ leftIter ∧ .ok orig ∈ rightIter ∧
        (∀ p ∈ L.zip R, tget orig p.2 = tget t p.1) ∧
        out = .ok (applyElim elim (t ++ orig)) := by
  intro out hout
  rw [show materializedJoinCore leftIter rightIter L R n elim
      = (match drainStore rightIter (rightStoreIndicesOf R n) with
        | .error e => [.error e]
        | .ok store =>
          leftIter.flatMap fun item =>
            match item with
            | .error e => [.error e]
            | .ok t =>
              (scanPfx store (L.map fun i => tget t i)).map fun found =>
                .ok (applyElim elim (t ++ (rightInvertIndicesOf
                  (rightStoreIndicesOf R n)).map fun i => tget found i))) from rfl] at hout
  cases hdrain : drainStore rightIter (rightStoreIndicesOf R n) with
  | error e =>
    rw [hdrain] at hout
    simp only [List.mem_singleton] at hout
    exact Or.inl ⟨e, hout⟩
  | ok store =>
    rw [hdrain] at hout
    rw [List.mem_flatMap] at hout
    obtain ⟨item, hitem, hin⟩ := hout
    cases item with
    | error e =>
      have : out = .error e := by simpa using hin
      exact Or.inl ⟨e, this⟩
    | ok t =>
      have hin2 : out ∈ (scanPfx store (L.map fun i => tget t i)).map fun found =>
          Except.ok (applyElim elim (t ++ (rightInvertIndicesOf
            (rightStoreIndicesOf R n)).map fun i => tget found i)) := hin
      rw [List.mem_map] at hin2
      obtain ⟨found, hfound, hfe⟩ := hin2
      unfold scanPfx at hfound
      rw [List.mem_filter] at hfound
      obtain ⟨hfstore, hftake⟩ := hfound
      rw [decide_eq_true_iff] at hftake
      obtain ⟨orig, horigmem, hfrm⟩ :=
        drainStore_ok_mem (rightStoreIndicesOf R n) rightIter store hdrain found hfstore
      have horiglen : orig.length = n := hright orig horigmem
      have hslen : (rightStoreIndicesOf R n).length = n :=
        rightStoreIndices_length R n hnd hRn
      right
      refine ⟨t, orig, hitem, horigmem, ?_, ?_⟩
      · intro p hp
        obtain ⟨i, hi, hpi⟩ := List.mem_iff_getElem.mp hp
        have hiL : i < L.length := by
          rw [List.length_zip, hLR, Nat.min_self] at hi
          exact hLR ▸ hi
        have hiR : i < R.length := hLR ▸ hiL
        have hpz : p = (L[i], R[i]) := by
          rw [← hpi, List.getElem_zip]
        subst hpz
        have hiflen : i < found.length := by
          rw [hfrm, List.length_map]
          rw [hslen]
          calc i < R.length := hiR
            _ ≤ n := by
              have := hslen
              unfold rightStoreIndicesOf at this
              rw [List.length_append] at this
              omega
        have hip : i < (L.map fun j => tget t j).length := by
          rw [List.length_map]
          exact hiL
        have hfi : found[i] = (L.map fun j => tget t j)[i] := by
          have := congrArg (fun l => l[i]?) hftake
          simp only [List.getElem?_take] at this
          rw [if_pos hip] at this
          rw [List.getElem?_eq_getElem hiflen, List.getElem?_eq_getElem hip] at this
          exact Option.some_inj.mp this
        have hsi : i < (rightStoreIndicesOf R n).length := by
          rw [hslen]
          calc i < R.length := hiR
            _ ≤ n := by
              have := hslen
              unfold rightStoreIndicesOf at this
              rw [List.length_append] at this
              omega
        have hfound_i : found[i] = tget orig ((rightStoreIndicesOf R n)[i]) := by
          have h1 : found[i]? = some (tget orig ((rightStoreIndicesOf R n)[i])) := by
            rw [hfrm, List.getElem?_map, List.getElem?_eq_getElem hsi]
            rfl
          rw [List.getElem?_eq_getElem hiflen] at h1
          exact Option.some_inj.mp h1
        have hstore_i : (rightStoreIndicesOf R n)[i] = R[i] := by
          unfold rightStoreIndicesOf
          exact List.getElem_append_left hiR
        have hLmap : (L.map fun j => tget t j)[i] = tget t (L[i]) := by
          rw [List.getElem_map]
        show tget orig (R[i]) = tget t (L[i])
        rw [← hstore_i, ← hfound_i, hfi, hLmap]
      · rw [← hfe]
        have hrestore : (rightInvertIndicesOf (rightStoreIndicesOf R n)).map
            (fun i => tget found i) = orig := by
          rw [hfrm]
          exact invert_indices_restore (rightStoreIndicesOf R n) n
            (rightStoreIndices_perm R n hnd hRn) orig horiglen
        rw [hrestore]

/-- Witness for the materialized-join theorem at a concrete instance: right
child with two columns, joined on its second column. -/
theorem materialized_join_restores_order_witness :
    (∃ e, (Except.ok ([DataValue.intV 6, .intV 5, .intV 6] : Tuple) : Except Err Tuple)
      = .error e) ∨
    ∃ t orig, Except.ok t ∈ ([Except.ok ([DataValue.intV 6] : Tuple)] :
        List (Except Err Tuple))
      ∧ Except.ok orig ∈ ([Except.ok ([DataValue.intV 5, DataValue.intV 6] : Tuple)] :
        List (Except Err Tuple))
      ∧ (∀ p ∈ (([0] : List Nat).zip ([1] : List Nat)), tget orig p.2 = tget t p.1)
      ∧ (Except.ok ([DataValue.intV 6, .intV 5, .intV 6] : Tuple) : Except Err Tuple)
        = .ok (applyElim ∅ (t ++ orig)) :=
  materialized_join_restores_order [Except.ok ([DataValue.intV 6] : Tuple)]
    [Except.ok ([DataValue.intV 5, DataValue.intV 6] : Tuple)] [0] [1] 2 ∅
    (by decide) (by decide) (by decide)
    (by
      intro t h
      rw [List.mem_singleton] at h
      cases h
      rfl)
    (Except.ok ([DataValue.intV 6, .intV 5, .intV 6] : Tuple)) (by decide)

end Cozo
